import Mathlib

/-!
Shallow embedding of the rpixi renderers (`src/main.rs`, the live-window
density-accumulation variant, and `src/cmdline.rs`, the batch
blend-accumulation variant), together with theorems settling the frozen
claims about them.

Rust `f64` values are modelled as real numbers, `u32`/`u16`/`u8` values as
natural numbers with explicit saturation/truncation where the source casts.
A canvas is modelled as a total function from pixel coordinates to pixel
values; `image::ImageBuffer::get_pixel_mut` followed by a write becomes
`Function.update`.
-/

namespace Rpixi

/-- Rust `as u32` cast from `f64`, modelled on ℝ: negative values clamp to
`0` (via `Nat.floor`), values at or above `2^32` saturate to `2^32 - 1`,
and everything in between truncates toward zero (floor, as the value is
nonnegative). -/
noncomputable def f64_to_u32 (x : ℝ) : ℕ := min ⌊x⌋₊ (2 ^ 32 - 1)

/-- Rust `as u16` cast from `f64`, modelled on ℝ (same clamping scheme as
`f64_to_u32` at width 16). -/
noncomputable def f64_to_u16 (x : ℝ) : ℕ := min ⌊x⌋₊ (2 ^ 16 - 1)

/-- Rust `as u8` cast from `f64`, modelled on ℝ (same clamping scheme as
`f64_to_u32` at width 8). -/
noncomputable def f64_to_u8 (x : ℝ) : ℕ := min ⌊x⌋₊ (2 ^ 8 - 1)

/-- Embeds `(cfg.width as f64/2.0) + z.re * cfg.zoom as f64 - 0.5`, the
horizontal part of the projection, identical in `main.rs::draw_point` and
`cmdline.rs::draw_point`. -/
noncomputable def posX (width zoom : ℕ) (re : ℝ) : ℝ :=
  (width : ℝ) / 2 + re * (zoom : ℝ) - 0.5

/-- Embeds `(cfg.height as f64/2.0) - z.im * cfg.zoom as f64 + 0.5`, the
vertical part of the projection, identical in `main.rs::draw_point` and
`cmdline.rs::draw_point`. -/
noncomputable def posY (height zoom : ℕ) (im : ℝ) : ℝ :=
  (height : ℝ) / 2 - im * (zoom : ℝ) + 0.5

/-- Projection of a complex value to integer pixel coordinates: the affine
maps `posX`/`posY` followed by the source's `as u32` casts. -/
noncomputable def project (width height zoom : ℕ) (z : ℂ) : ℕ × ℕ :=
  (f64_to_u32 (posX width zoom z.re), f64_to_u32 (posY height zoom z.im))

open Classical in
/-- Common shape of `draw_point` in both source files: compute `pos_x`,
`pos_y`; return the canvas unchanged when `pos_x + 1.0 < 0.0 || pos_y < 0.0`;
cast to `u32`; return unchanged when `pos_x >= width || pos_y >= height`;
otherwise overwrite the single addressed pixel with `f` of its old value
(`f` is the saturating increment in `main.rs`, a blend with the drawing
colour in `cmdline.rs`). -/
noncomputable def drawPointCore {α : Type} (width height zoom : ℕ)
    (canvas : ℕ × ℕ → α) (z : ℂ) (f : α → α) : ℕ × ℕ → α :=
  if posX width zoom z.re + 1 < 0 ∨ posY height zoom z.im < 0 then canvas
  else if width ≤ f64_to_u32 (posX width zoom z.re) ∨
          height ≤ f64_to_u32 (posY height zoom z.im) then canvas
  else
    Function.update canvas
      (f64_to_u32 (posX width zoom z.re), f64_to_u32 (posY height zoom z.im))
      (f (canvas
        (f64_to_u32 (posX width zoom z.re), f64_to_u32 (posY height zoom z.im))))

/-- Rust `u16::saturating_add`, modelled on ℕ. -/
def u16_saturating_add (a b : ℕ) : ℕ := min (a + b) 65535

/-- RGBA pixel with ℕ channels (used at 16-bit and at 8-bit depth). -/
structure Rgba where
  r : ℕ
  g : ℕ
  b : ℕ
  a : ℕ
deriving DecidableEq, Repr

/-- Shared trajectory loop body of both variants:
`for _ in 0..n { z = step(z); points.push(z); }` — each loop turn applies
the recurrence once and records the result. -/
def trajAux (step : ℂ → ℂ) : ℕ → ℂ → List ℂ
  | 0, _ => []
  | n + 1, z =>
    let z1 := step z
    z1 :: trajAux step n z1

/-- Embeds the coordinate stream
`(0_u32..).map(|x| -bounds + x as f64 * delta).take_while(|&x| x < bounds)`
of both `main.rs` and `cmdline.rs`. The Rust iterator is unbounded, so the
embedding carries an explicit `fuel` bound on how many stream elements are
inspected; `k` is the running stream index. For `0 < delta` the stream is
strictly increasing, so every sufficiently large `fuel` yields the same
list (proved below). -/
noncomputable def coordsAux (bounds delta : ℝ) : ℕ → ℕ → List ℝ
  | 0, _ => []
  | fuel + 1, k =>
    let x := -bounds + (k : ℝ) * delta
    if x < bounds then x :: coordsAux bounds delta fuel (k + 1) else []

/-- Source `coords`: the 1D coordinate list, from stream index 0. -/
noncomputable def coords (bounds delta : ℝ) (fuel : ℕ) : List ℝ :=
  coordsAux bounds delta fuel 0

/-- Source `all_coords`: the full cross product of the 1D coordinate list
with itself (`coords.iter().cartesian_product(coords.iter())`). -/
noncomputable def all_coords (bounds delta : ℝ) (fuel : ℕ) : List (ℝ × ℝ) :=
  (coords bounds delta fuel).product (coords bounds delta fuel)

/-- Number of stream indices `k` with `-bounds + k·delta < bounds`, i.e.
`⌈2·bounds/delta⌉` — the length the coordinate list settles at. -/
noncomputable def gridSize (bounds delta : ℝ) : ℕ := ⌈2 * bounds / delta⌉₊

namespace Main

/-- Configuration of the live-window variant (`main.rs::Config`): machine
integers as ℕ, `f64` fields as ℝ. -/
structure Config where
  width : ℕ
  height : ℕ
  bounds : ℝ
  power : ℝ
  factor : ℝ
  zoom : ℕ
  delta : ℝ
  loop_limit : ℕ
  off_real : ℝ
  off_imaginary : ℝ

/-- Density canvas of `main.rs` (`Pic<u16>` with `LumaA` pixels): only the
luma channel is ever written, so the canvas is modelled as the map from
pixel coordinates to the luma counter. -/
def CanvasD : Type := ℕ × ℕ → ℕ

/-- Embeds `main.rs::mandelbrot`: `z.powf(cfg.power) + Complex64::new(x, y)`,
with `powf` as the principal complex power (polar form, matching `num`'s
`from_polar(norm^p, arg·p)`). -/
noncomputable def mandelbrot (z : ℂ) (x y : ℝ) (cfg : Config) : ℂ :=
  z ^ (cfg.power : ℂ) + ⟨x, y⟩

/-- Embeds `main.rs::draw_point`: project, bounds-check, then
`pixel[0] = pixel[0].saturating_add(1)` on the single addressed pixel. -/
noncomputable def draw_point (canvas : CanvasD) (z : ℂ) (cfg : Config) :
    CanvasD :=
  drawPointCore cfg.width cfg.height cfg.zoom canvas z
    (fun v => u16_saturating_add v 1)

/-- Recorded trajectory of one seed in `main.rs::iterate_coordinate`:
`z` starts at the configured offset, one warm-up application of the
recurrence is made outside the recording loop, then `loop_limit` further
applications are recorded. -/
noncomputable def points (cfg : Config) (x y : ℝ) : List ℂ :=
  let step := fun z => mandelbrot z x y cfg
  trajAux step cfg.loop_limit (step ⟨cfg.off_real, cfg.off_imaginary⟩)

/-- Canvas effect of `main.rs::iterate_coordinate` for one seed: one
`draw_point` per recorded trajectory value, in order. -/
noncomputable def iterate_coordinate (x y : ℝ) (canvas : CanvasD)
    (cfg : Config) : CanvasD :=
  (points cfg x y).foldl (fun cv z => draw_point cv z cfg) canvas

/-- Embeds `main.rs::u16_to_u8`, the display conversion: per pixel,
`val = 1.0 - ((-p)/factor).exp()`, `c = (val * 255.0) as u8`, output pixel
`Rgba([c, c, c, 255])`. -/
noncomputable def u16_to_u8 (canvas : CanvasD) (factor : ℝ) :
    ℕ × ℕ → Rgba := fun pos =>
  let p : ℝ := (canvas pos : ℝ)
  let val := 1 - Real.exp (-p / factor)
  let c := f64_to_u8 (val * 255)
  ⟨c, c, c, 255⟩

end Main

namespace Cmdline

/-- Configuration of the batch blend variant (`cmdline.rs::Config`). -/
structure Config where
  width : ℕ
  height : ℕ
  bounds : ℝ
  power : ℝ
  colour_factor : ℝ
  opacity : ℝ
  zoom : ℕ
  delta : ℝ
  loop_limit : ℕ

/-- Blend canvas of `cmdline.rs` (`Pic<u16>` with `Rgba<u16>` pixels). -/
def CanvasB : Type := ℕ × ℕ → Rgba

/-- Embeds `cmdline.rs::mandelbrot` (textually identical to the `main.rs`
one). -/
noncomputable def mandelbrot (z : ℂ) (x y : ℝ) (cfg : Config) : ℂ :=
  z ^ (cfg.power : ℂ) + ⟨x, y⟩

/-- Embeds `cmdline.rs::draw_point`: same projection and bounds checks as
`main.rs::draw_point`, but the in-range write is
`image.get_pixel_mut(..).blend(&color)`. `Pixel::blend` lives in the
external `image` crate, so it is passed in as a parameter: every claim
settled here depends only on where the blend is applied, never on its
arithmetic. -/
noncomputable def draw_point (blend : Rgba → Rgba → Rgba) (canvas : CanvasB)
    (z : ℂ) (color : Rgba) (cfg : Config) : CanvasB :=
  drawPointCore cfg.width cfg.height cfg.zoom canvas z
    (fun v => blend v color)

/-- Embeds `cmdline.rs::u16_to_u8`, the export conversion: every channel of
every pixel is shifted right by 8 bits and cast to `u8`. -/
def u16_to_u8 (img : ℕ × ℕ → Rgba) : ℕ × ℕ → Rgba := fun pos =>
  ⟨((img pos).r >>> 8) % 256, ((img pos).g >>> 8) % 256,
   ((img pos).b >>> 8) % 256, ((img pos).a >>> 8) % 256⟩

/-- Embeds the drawing colour of `cmdline.rs::make_frame`, computed once
before the seed loop:
`Rgba([u16::MAX, u16::MAX, u16::MAX, (u16::MAX as f64 * cfg.opacity) as u16])`. -/
noncomputable def frame_color (cfg : Config) : Rgba :=
  ⟨65535, 65535, 65535, f64_to_u16 (65535 * cfg.opacity)⟩

/-- Recorded trajectory of one seed in the per-seed closure of
`cmdline.rs::make_frame`: `z` starts at `Complex64::new(0.0, 0.0)`, one
warm-up application is made outside the recording loop, then `loop_limit`
further applications are recorded. -/
noncomputable def points (cfg : Config) (x y : ℝ) : List ℂ :=
  let step := fun z => mandelbrot z x y cfg
  trajAux step cfg.loop_limit (step 0)

/-- Writes issued for one seed by `cmdline.rs::make_frame`: one per
recorded trajectory value, each carrying the same captured `color`. -/
noncomputable def seed_writes (cfg : Config) (x y : ℝ) : List (ℂ × Rgba) :=
  (points cfg x y).map (fun z => (z, frame_color cfg))

/-- Canvas effect of the per-seed closure of `cmdline.rs::make_frame`: one
`draw_point` with the captured `color` per recorded trajectory value. -/
noncomputable def make_frame_seed (blend : Rgba → Rgba → Rgba)
    (cfg : Config) (canvas : CanvasB) (x y : ℝ) : CanvasB :=
  (points cfg x y).foldl
    (fun cv z => draw_point blend cv z (frame_color cfg) cfg) canvas

end Cmdline

/-- Written following the spec's words, for comparison with the source
(which computes no hue at all): the claimed trajectory colouring policy
`hue = colour_factor * 360° * cos(|c| / bounds)` for a seed `c`. -/
noncomputable def spec_hue (cfg : Cmdline.Config) (c : ℂ) : ℝ :=
  cfg.colour_factor * 360 * Real.cos (Complex.abs c / cfg.bounds)

/-- Condition under which both `draw_point`s drop a write: the two `f64`
tests of the first source check, then the two post-cast tests of the
second. -/
noncomputable def dropCond (width height zoom : ℕ) (z : ℂ) : Prop :=
  posX width zoom z.re + 1 < 0 ∨ posY height zoom z.im < 0 ∨
    width ≤ (project width height zoom z).1 ∨
    height ≤ (project width height zoom z).2

section CastLemmas

lemma f64_to_u32_eq_of (x : ℝ) (n : ℕ) (h1 : (n : ℝ) ≤ x) (h2 : x < n + 1)
    (h3 : n < 2 ^ 32) : f64_to_u32 x = n := by
  have hx : 0 ≤ x := le_trans (Nat.cast_nonneg n) h1
  have hf : ⌊x⌋₊ = n := (Nat.floor_eq_iff hx).mpr ⟨h1, h2⟩
  unfold f64_to_u32
  rw [hf]
  exact min_eq_left (by omega)

lemma f64_to_u32_neg (x : ℝ) (h : x < 0) : f64_to_u32 x = 0 := by
  unfold f64_to_u32
  rw [Nat.floor_eq_zero.mpr (lt_trans h one_pos)]
  simp

lemma f64_to_u8_eq_of (x : ℝ) (n : ℕ) (h1 : (n : ℝ) ≤ x) (h2 : x < n + 1)
    (h3 : n < 2 ^ 8) : f64_to_u8 x = n := by
  have hx : 0 ≤ x := le_trans (Nat.cast_nonneg n) h1
  have hf : ⌊x⌋₊ = n := (Nat.floor_eq_iff hx).mpr ⟨h1, h2⟩
  unfold f64_to_u8
  rw [hf]
  exact min_eq_left (by omega)

lemma f64_to_u16_eq_of (x : ℝ) (n : ℕ) (h1 : (n : ℝ) ≤ x) (h2 : x < n + 1)
    (h3 : n < 2 ^ 16) : f64_to_u16 x = n := by
  have hx : 0 ≤ x := le_trans (Nat.cast_nonneg n) h1
  have hf : ⌊x⌋₊ = n := (Nat.floor_eq_iff hx).mpr ⟨h1, h2⟩
  unfold f64_to_u16
  rw [hf]
  exact min_eq_left (by omega)

end CastLemmas

section DrawLemmas

lemma drawPointCore_drop {α : Type} (w h zm : ℕ) (canvas : ℕ × ℕ → α)
    (z : ℂ) (f : α → α) (hd : dropCond w h zm z) :
    drawPointCore w h zm canvas z f = canvas := by
  unfold dropCond project at hd
  unfold drawPointCore
  by_cases h1 : posX w zm z.re + 1 < 0 ∨ posY h zm z.im < 0
  · rw [if_pos h1]
  · rw [if_neg h1, if_pos (by tauto)]

lemma drawPointCore_write {α : Type} (w h zm : ℕ) (canvas : ℕ × ℕ → α)
    (z : ℂ) (f : α → α) (hd : ¬ dropCond w h zm z) :
    (project w h zm z).1 < w ∧ (project w h zm z).2 < h ∧
      drawPointCore w h zm canvas z f =
        Function.update canvas (project w h zm z)
          (f (canvas (project w h zm z))) := by
  unfold dropCond project at hd
  unfold project
  push_neg at hd
  obtain ⟨h1, h2, h3, h4⟩ := hd
  refine ⟨h3, h4, ?_⟩
  unfold drawPointCore
  rw [if_neg (by push_neg; exact ⟨h1, h2⟩), if_neg (by push_neg; omega)]

lemma project_fst (w h zm : ℕ) (z : ℂ) :
    (project w h zm z).1 = f64_to_u32 (posX w zm z.re) := rfl

lemma project_snd (w h zm : ℕ) (z : ℂ) :
    (project w h zm z).2 = f64_to_u32 (posY h zm z.im) := rfl

end DrawLemmas

/-- C3: for every configuration, canvas and complex value `z`, in both
variants, a canvas write is bounds-checked: when the projected position is
out of bounds (`pos_x + 1 < 0`, `pos_y < 0`, `px ≥ width`, or
`py ≥ height`) the write is silently dropped and the canvas is returned
unchanged; otherwise exactly the one addressed pixel, which is in range,
is overwritten with the accumulation of its old value. -/
theorem draw_point_bounds_checked :
    (∀ (cfg : Main.Config) (canvas : Main.CanvasD) (z : ℂ),
      (dropCond cfg.width cfg.height cfg.zoom z →
        Main.draw_point canvas z cfg = canvas) ∧
      (¬ dropCond cfg.width cfg.height cfg.zoom z →
        (project cfg.width cfg.height cfg.zoom z).1 < cfg.width ∧
        (project cfg.width cfg.height cfg.zoom z).2 < cfg.height ∧
        Main.draw_point canvas z cfg =
          Function.update canvas (project cfg.width cfg.height cfg.zoom z)
            (u16_saturating_add
              (canvas (project cfg.width cfg.height cfg.zoom z)) 1))) ∧
    (∀ (cfg : Cmdline.Config) (canvas : Cmdline.CanvasB) (z : ℂ)
       (color : Rgba) (blend : Rgba → Rgba → Rgba),
      (dropCond cfg.width cfg.height cfg.zoom z →
        Cmdline.draw_point blend canvas z color cfg = canvas) ∧
      (¬ dropCond cfg.width cfg.height cfg.zoom z →
        (project cfg.width cfg.height cfg.zoom z).1 < cfg.width ∧
        (project cfg.width cfg.height cfg.zoom z).2 < cfg.height ∧
        Cmdline.draw_point blend canvas z color cfg =
          Function.update canvas (project cfg.width cfg.height cfg.zoom z)
            (blend (canvas (project cfg.width cfg.height cfg.zoom z))
              color))) := by
  constructor
  · intro cfg canvas z
    exact ⟨fun hd => drawPointCore_drop _ _ _ _ _ _ hd,
           fun hd => drawPointCore_write _ _ _ _ _ _ hd⟩
  · intro cfg canvas z color blend
    exact ⟨fun hd => drawPointCore_drop _ _ _ _ _ _ hd,
           fun hd => drawPointCore_write _ _ _ _ _ _ hd⟩

/-- Witness for C3: at width 100, height 100, zoom 50, the value `z = 10`
projects to column 549, which is out of range, so the write is dropped
and the canvas is unchanged. -/
theorem draw_point_bounds_checked_witness :
    Main.draw_point (fun _ => 0) ⟨10, 0⟩
      ⟨100, 100, 0.6, 2, 50, 50, 0.05, 200, 0, 0⟩ = (fun _ => 0) := by
  have hre : (⟨10, 0⟩ : ℂ).re = 10 := rfl
  have hpx : posX 100 50 (⟨10, 0⟩ : ℂ).re = 549.5 := by
    rw [hre]; unfold posX; norm_num
  have h549 : f64_to_u32 (posX 100 50 (⟨10, 0⟩ : ℂ).re) = 549 := by
    rw [hpx]
    exact f64_to_u32_eq_of _ 549 (by norm_num) (by norm_num) (by norm_num)
  apply (draw_point_bounds_checked.1
    ⟨100, 100, 0.6, 2, 50, 50, 0.05, 200, 0, 0⟩ (fun _ => 0) ⟨10, 0⟩).1
  refine Or.inr (Or.inr (Or.inl ?_))
  rw [project_fst, h549]
  norm_num

/-- C10: in both variants, for every `z` whose `pos_x` lies in `[-1, 0)`
with `pos_y` in range (and a positive width), the write is not dropped:
the first bounds test only rejects `pos_x + 1 < 0`, the `as u32` cast
sends the negative `pos_x` to `0`, and the contribution is accumulated
into the in-range pixel in column `0`. -/
theorem negative_fringe_hits_column_zero :
    (∀ (cfg : Main.Config) (canvas : Main.CanvasD) (z : ℂ),
      -1 ≤ posX cfg.width cfg.zoom z.re →
      posX cfg.width cfg.zoom z.re < 0 →
      0 ≤ posY cfg.height cfg.zoom z.im →
      (project cfg.width cfg.height cfg.zoom z).2 < cfg.height →
      1 ≤ cfg.width →
      Main.draw_point canvas z cfg =
        Function.update canvas
          (0, (project cfg.width cfg.height cfg.zoom z).2)
          (u16_saturating_add
            (canvas (0, (project cfg.width cfg.height cfg.zoom z).2)) 1)) ∧
    (∀ (cfg : Cmdline.Config) (canvas : Cmdline.CanvasB) (z : ℂ)
       (color : Rgba) (blend : Rgba → Rgba → Rgba),
      -1 ≤ posX cfg.width cfg.zoom z.re →
      posX cfg.width cfg.zoom z.re < 0 →
      0 ≤ posY cfg.height cfg.zoom z.im →
      (project cfg.width cfg.height cfg.zoom z).2 < cfg.height →
      1 ≤ cfg.width →
      Cmdline.draw_point blend canvas z color cfg =
        Function.update canvas
          (0, (project cfg.width cfg.height cfg.zoom z).2)
          (blend
            (canvas (0, (project cfg.width cfg.height cfg.zoom z).2))
            color)) := by
  constructor
  · intro cfg canvas z h1 h2 h3 h4 h5
    have hx0 : f64_to_u32 (posX cfg.width cfg.zoom z.re) = 0 :=
      f64_to_u32_neg _ h2
    have hnd : ¬ dropCond cfg.width cfg.height cfg.zoom z := by
      unfold dropCond
      push_neg
      exact ⟨by linarith, h3, by rw [project_fst, hx0]; omega, h4⟩
    obtain ⟨hpw, hph, heq⟩ :=
      drawPointCore_write cfg.width cfg.height cfg.zoom canvas z
        (fun v => u16_saturating_add v 1) hnd
    have hproj : project cfg.width cfg.height cfg.zoom z =
        (0, (project cfg.width cfg.height cfg.zoom z).2) := by
      rw [Prod.ext_iff]
      exact ⟨by rw [project_fst, hx0], rfl⟩
    show drawPointCore cfg.width cfg.height cfg.zoom canvas z
      (fun v => u16_saturating_add v 1) = _
    rw [heq, hproj]
  · intro cfg canvas z color blend h1 h2 h3 h4 h5
    have hx0 : f64_to_u32 (posX cfg.width cfg.zoom z.re) = 0 :=
      f64_to_u32_neg _ h2
    have hnd : ¬ dropCond cfg.width cfg.height cfg.zoom z := by
      unfold dropCond
      push_neg
      exact ⟨by linarith, h3, by rw [project_fst, hx0]; omega, h4⟩
    obtain ⟨hpw, hph, heq⟩ :=
      drawPointCore_write cfg.width cfg.height cfg.zoom canvas z
        (fun v => blend v color) hnd
    have hproj : project cfg.width cfg.height cfg.zoom z =
        (0, (project cfg.width cfg.height cfg.zoom z).2) := by
      rw [Prod.ext_iff]
      exact ⟨by rw [project_fst, hx0], rfl⟩
    show drawPointCore cfg.width cfg.height cfg.zoom canvas z
      (fun v => blend v color) = _
    rw [heq, hproj]

/-- Witness for C10: at width 100, height 100, zoom 50, the value
`z = -201/200` has `pos_x = -0.75 ∈ [-1, 0)` and `pos_y = 50.5`, and the
write lands on pixel `(0, 50)`, incrementing its counter from 0 to 1. -/
theorem negative_fringe_hits_column_zero_witness :
    Main.draw_point (fun _ => 0) ⟨-(201 / 200), 0⟩
      ⟨100, 100, 0.6, 2, 50, 50, 0.05, 200, 0, 0⟩ =
      Function.update (fun _ => (0 : ℕ)) ((0 : ℕ), (50 : ℕ)) 1 := by
  have hre : (⟨-(201 / 200), 0⟩ : ℂ).re = -(201 / 200) := rfl
  have him : (⟨-(201 / 200), 0⟩ : ℂ).im = 0 := rfl
  have hpx : posX 100 50 (⟨-(201 / 200), 0⟩ : ℂ).re = -0.75 := by
    rw [hre]; unfold posX; norm_num
  have hpy : posY 100 50 (⟨-(201 / 200), 0⟩ : ℂ).im = 50.5 := by
    rw [him]; unfold posY; norm_num
  have h50 : (project 100 100 50 (⟨-(201 / 200), 0⟩ : ℂ)).2 = 50 := by
    rw [project_snd, hpy]
    exact f64_to_u32_eq_of _ 50 (by norm_num) (by norm_num) (by norm_num)
  have := negative_fringe_hits_column_zero.1
    ⟨100, 100, 0.6, 2, 50, 50, 0.05, 200, 0, 0⟩ (fun _ => 0)
    ⟨-(201 / 200), 0⟩
    (by rw [hpx]; norm_num) (by rw [hpx]; norm_num)
    (by rw [hpy]; norm_num) (by rw [h50]; norm_num) (by norm_num)
  rw [this, h50]
  rfl

lemma project_at_origin_100 : project 100 100 50 0 = (49, 50) := by
  have hx : posX 100 50 (0 : ℂ).re = 49.5 := by
    unfold posX
    rw [Complex.zero_re]
    norm_num
  have hy : posY 100 50 (0 : ℂ).im = 50.5 := by
    unfold posY
    rw [Complex.zero_im]
    norm_num
  rw [Prod.ext_iff, project_fst, project_snd, hx, hy]
  constructor
  · exact f64_to_u32_eq_of _ 49 (by norm_num) (by norm_num) (by norm_num)
  · exact f64_to_u32_eq_of _ 50 (by norm_num) (by norm_num) (by norm_num)

/-- Counterexample to C1 as stated: at width 100, height 100, zoom 50, the
point `z = 0` does not map to pixel `(49, 49)` — the code maps it to
`(49, 50)`, since `pos_y = 50 + 0.5 = 50.5` truncates to `50`. -/
theorem project_center_ne_49_49 : project 100 100 50 0 ≠ (49, 49) := by
  rw [project_at_origin_100]
  decide

/-- C1 (amended): the projection computes
`px = width/2 + Re(z)·zoom − 0.5` and `py = height/2 − Im(z)·zoom + 0.5`
and truncates both toward the pixel grid (integer-cast semantics: the cast
value is the floor of any in-range nonnegative position, never a
round-to-nearest); at width 100, height 100, zoom 50, the point `z = 0`
maps to pixel `(49, 50)`. -/
theorem project_affine_truncation :
    (∀ (w h zm : ℕ) (z : ℂ),
      project w h zm z =
        (f64_to_u32 ((w : ℝ) / 2 + z.re * (zm : ℝ) - 0.5),
         f64_to_u32 ((h : ℝ) / 2 - z.im * (zm : ℝ) + 0.5))) ∧
    (∀ x : ℝ, 0 ≤ x → x < 2 ^ 32 - 1 →
      (f64_to_u32 x : ℝ) ≤ x ∧ x < f64_to_u32 x + 1) ∧
    project 100 100 50 0 = (49, 50) := by
  refine ⟨fun w h zm z => rfl, fun x hx hub => ?_, project_at_origin_100⟩
  have hfl : (⌊x⌋₊ : ℝ) ≤ x := Nat.floor_le hx
  have hcast : ((2 ^ 32 - 1 : ℕ) : ℝ) = 2 ^ 32 - 1 := by norm_num
  have hsmall : ⌊x⌋₊ ≤ 2 ^ 32 - 1 := by
    by_contra hcon
    push_neg at hcon
    have : ((2 ^ 32 - 1 : ℕ) : ℝ) < (⌊x⌋₊ : ℝ) := by exact_mod_cast hcon
    linarith
  have hmin : f64_to_u32 x = ⌊x⌋₊ := by
    unfold f64_to_u32
    exact min_eq_left hsmall
  rw [hmin]
  exact ⟨hfl, Nat.lt_floor_add_one x⟩

/-- Witness for C1 (amended): the truncation characterization evaluated at
the concrete position `49.5`. -/
theorem project_affine_truncation_witness :
    (f64_to_u32 49.5 : ℝ) ≤ 49.5 ∧ (49.5 : ℝ) < f64_to_u32 49.5 + 1 :=
  project_affine_truncation.2.1 49.5 (by norm_num) (by norm_num)

lemma trajAux_eq (step : ℂ → ℂ) :
    ∀ (n : ℕ) (z : ℂ),
      trajAux step n z = (List.range n).map (fun i => step^[i + 1] z)
  | 0, _ => by simp [trajAux]
  | n + 1, z => by
    show step z :: trajAux step n (step z) = _
    rw [trajAux_eq step n (step z), List.range_succ_eq_map, List.map_cons,
      List.map_map]
    exact congrArg₂ List.cons (by simp) rfl

lemma trajAux_length (step : ℂ → ℂ) (n : ℕ) (z : ℂ) :
    (trajAux step n z).length = n := by
  rw [trajAux_eq]
  simp

/-- C4: in both variants, the per-seed worker starts `z` at the configured
offset (`main.rs`) or at `0` (`cmdline.rs`), performs one warm-up
application of the recurrence whose result is not recorded, then performs
exactly `loop_limit` further applications, recording all of them — the
`i`-th recorded value is the `(i+2)`-nd iterate of the start value — and
issues one canvas write per recorded value; the worker never terminates
early, so exactly `loop_limit` points are produced per seed. -/
theorem worker_trajectory_shape :
    (∀ (cfg : Main.Config) (x y : ℝ),
      (Main.points cfg x y).length = cfg.loop_limit ∧
      Main.points cfg x y = (List.range cfg.loop_limit).map
        (fun i => (fun z => Main.mandelbrot z x y cfg)^[i + 2]
          ⟨cfg.off_real, cfg.off_imaginary⟩) ∧
      ∀ (canvas : Main.CanvasD),
        Main.iterate_coordinate x y canvas cfg =
          (Main.points cfg x y).foldl
            (fun cv z => Main.draw_point cv z cfg) canvas) ∧
    (∀ (cfg : Cmdline.Config) (x y : ℝ),
      (Cmdline.points cfg x y).length = cfg.loop_limit ∧
      Cmdline.points cfg x y = (List.range cfg.loop_limit).map
        (fun i => (fun z => Cmdline.mandelbrot z x y cfg)^[i + 2] 0) ∧
      ∀ (canvas : Cmdline.CanvasB) (blend : Rgba → Rgba → Rgba),
        Cmdline.make_frame_seed blend cfg canvas x y =
          (Cmdline.points cfg x y).foldl
            (fun cv z =>
              Cmdline.draw_point blend cv z (Cmdline.frame_color cfg) cfg)
            canvas) := by
  constructor
  · intro cfg x y
    refine ⟨trajAux_length _ _ _, ?_, fun canvas => rfl⟩
    show trajAux _ _ _ = _
    rw [trajAux_eq]
    rfl
  · intro cfg x y
    refine ⟨trajAux_length _ _ _, ?_, fun canvas blend => rfl⟩
    show trajAux _ _ _ = _
    rw [trajAux_eq]
    rfl

lemma coordsAux_eq (bounds delta : ℝ) (hd : 0 < delta) :
    ∀ (fuel k : ℕ), gridSize bounds delta ≤ k + fuel →
      k ≤ gridSize bounds delta →
      coordsAux bounds delta fuel k =
        (List.range' k (gridSize bounds delta - k)).map
          (fun (i : ℕ) => -bounds + (i : ℝ) * delta)
  | 0, k, h1, h2 => by
    have hk : gridSize bounds delta = k := le_antisymm (by omega) h2
    simp [coordsAux, hk]
  | fuel + 1, k, h1, h2 => by
    show (if -bounds + (k : ℝ) * delta < bounds then
        (-bounds + (k : ℝ) * delta) :: coordsAux bounds delta fuel (k + 1)
      else []) = _
    by_cases hk : k < gridSize bounds delta
    · have hcast : (k : ℝ) < 2 * bounds / delta := Nat.lt_ceil.mp hk
      have hlt : -bounds + (k : ℝ) * delta < bounds := by
        rw [lt_div_iff₀ hd] at hcast
        linarith
      rw [if_pos hlt,
        coordsAux_eq bounds delta hd fuel (k + 1) (by omega) (by omega),
        show gridSize bounds delta - k = (gridSize bounds delta - (k + 1)) + 1
          by omega,
        List.range'_succ]
      rfl
    · have hke : ⌈2 * bounds / delta⌉₊ ≤ k := by
        unfold gridSize at hk
        omega
      have hcast : 2 * bounds / delta ≤ (k : ℝ) := Nat.ceil_le.mp hke
      have hge : ¬ -bounds + (k : ℝ) * delta < bounds := by
        rw [div_le_iff₀ hd] at hcast
        linarith
      rw [if_neg hge, show gridSize bounds delta - k = 0 by omega]
      rfl

lemma coords_eq (bounds delta : ℝ) (hd : 0 < delta) (fuel : ℕ)
    (hf : gridSize bounds delta ≤ fuel) :
    coords bounds delta fuel =
      (List.range (gridSize bounds delta)).map
        (fun (i : ℕ) => -bounds + (i : ℝ) * delta) := by
  unfold coords
  rw [coordsAux_eq bounds delta hd fuel 0 (by omega) (by omega),
    List.range_eq_range']
  rfl

lemma gridSize_one_half : gridSize 1 (1 / 2) = 4 := by
  unfold gridSize
  rw [show (2 * 1 / (1 / 2) : ℝ) = ((4 : ℕ) : ℝ) by norm_num]
  exact Nat.ceil_natCast 4

/-- C5: the coordinate generator deterministically produces
`-bounds, -bounds + delta, -bounds + 2·delta, …`, including exactly the
values strictly below `bounds`; at `bounds = 1`, `delta = 0.5` it yields
exactly `[-1, -0.5, 0, 0.5]` and the 2D grid has exactly 16 pairs, for
every sufficient stream bound (order-stable, identical on every run). -/
theorem coordinate_grid_exact :
    (∀ fuel, 4 ≤ fuel →
      coords 1 (1 / 2) fuel = [-1, -(1 / 2), 0, 1 / 2] ∧
      (all_coords 1 (1 / 2) fuel).length = 16) ∧
    (∀ (bounds delta : ℝ), 0 < delta →
      ∀ fuel, gridSize bounds delta ≤ fuel → ∀ k : ℕ,
        ((-bounds + (k : ℝ) * delta) ∈ coords bounds delta fuel ↔
          -bounds + (k : ℝ) * delta < bounds)) ∧
    (∀ (bounds delta : ℝ), 0 < delta →
      ∀ fuel fuel', gridSize bounds delta ≤ fuel →
        gridSize bounds delta ≤ fuel' →
        coords bounds delta fuel = coords bounds delta fuel') := by
  have hcn : ∀ fuel, 4 ≤ fuel →
      coords 1 (1 / 2) fuel = [-1, -(1 / 2), 0, 1 / 2] := by
    intro fuel hf
    rw [coords_eq 1 (1 / 2) (by norm_num) fuel (by rw [gridSize_one_half]; omega),
      gridSize_one_half]
    rw [List.range_eq_range', show List.range' 0 4 = [0, 1, 2, 3] from rfl]
    show [_, _, _, _] = _
    norm_num
  refine ⟨fun fuel hf => ⟨hcn fuel hf, ?_⟩, ?_, ?_⟩
  · unfold all_coords
    show ((coords 1 (1 / 2) fuel) ×ˢ (coords 1 (1 / 2) fuel)).length = 16
    rw [List.length_product, hcn fuel hf]
    rfl
  · intro bounds delta hd fuel hf k
    rw [coords_eq bounds delta hd fuel hf]
    constructor
    · intro hmem
      obtain ⟨i, hi, hvi⟩ := List.mem_map.mp hmem
      have hik : i = k := by
        have : (i : ℝ) * delta = (k : ℝ) * delta := by linarith
        exact_mod_cast mul_right_cancel₀ (ne_of_gt hd) this
      have hkN : k < gridSize bounds delta := hik ▸ List.mem_range.mp hi
      have hcast : (k : ℝ) < 2 * bounds / delta := Nat.lt_ceil.mp hkN
      rw [lt_div_iff₀ hd] at hcast
      linarith
    · intro hlt
      refine List.mem_map.mpr ⟨k, List.mem_range.mpr ?_, rfl⟩
      refine Nat.lt_ceil.mpr ?_
      rw [lt_div_iff₀ hd]
      linarith
  · intro bounds delta hd fuel fuel' hf hf'
    rw [coords_eq bounds delta hd fuel hf, coords_eq bounds delta hd fuel' hf']

/-- Witness for C5: the exact list and pair count at `bounds = 1`,
`delta = 0.5`, stream bound 4. -/
theorem coordinate_grid_exact_witness :
    coords 1 (1 / 2) 4 = [-1, -(1 / 2), 0, 1 / 2] ∧
    (all_coords 1 (1 / 2) 4).length = 16 :=
  coordinate_grid_exact.1 4 (by norm_num)

/-- C6: for positive `bounds` and `delta`, the 1D coordinate list has
exactly `⌈2·bounds/delta⌉` entries and the 2D seed grid exactly
`⌈2·bounds/delta⌉²` pairs. -/
theorem coordinate_count_ceil :
    ∀ (bounds delta : ℝ), 0 < bounds → 0 < delta →
      ∀ fuel, gridSize bounds delta ≤ fuel →
        (coords bounds delta fuel).length = ⌈2 * bounds / delta⌉₊ ∧
        (all_coords bounds delta fuel).length = ⌈2 * bounds / delta⌉₊ ^ 2 := by
  intro bounds delta hb hd fuel hf
  have hlen : (coords bounds delta fuel).length = ⌈2 * bounds / delta⌉₊ := by
    rw [coords_eq bounds delta hd fuel hf, List.length_map, List.length_range]
    rfl
  refine ⟨hlen, ?_⟩
  unfold all_coords
  show ((coords bounds delta fuel) ×ˢ (coords bounds delta fuel)).length = _
  rw [List.length_product, hlen, sq]

/-- Witness for C6: at `bounds = 1`, `delta = 0.5` the 1D count is
`⌈4⌉ = 4` and the pair count is `16`. -/
theorem coordinate_count_ceil_witness :
    (coords 1 (1 / 2) 4).length = 4 ∧ (all_coords 1 (1 / 2) 4).length = 16 := by
  have h := coordinate_count_ceil 1 (1 / 2) (by norm_num) (by norm_num) 4
    (by rw [gridSize_one_half])
  have h4 : ⌈(2 * 1 / (1 / 2) : ℝ)⌉₊ = 4 := gridSize_one_half
  rw [h4] at h
  exact ⟨h.1, by rw [h.2]; norm_num⟩

/-- Counterexample to C2 as stated: with the default configuration
(`colour_factor = 0.7`, `bounds = 0.6`), no assignment of hues to written
colours can satisfy `hue = colour_factor · 360° · cos(|c| / bounds)`,
because the blend renderer writes one fixed colour for every seed, while
the claimed formula demands hue `252` for the seed `c = 0` and hue `0` for
the seed `c = 3π/10` (where `|c|/bounds = π/2`). -/
theorem hue_policy_refuted :
    ¬ ∃ hueOf : Rgba → ℝ, ∀ c : ℂ,
      hueOf (Cmdline.frame_color ⟨1280, 720, 0.6, 2, 0.7, 0.8, 350, 0.05, 200⟩) =
        spec_hue ⟨1280, 720, 0.6, 2, 0.7, 0.8, 350, 0.05, 200⟩ c := by
  rintro ⟨hueOf, h⟩
  have heq : spec_hue ⟨1280, 720, 0.6, 2, 0.7, 0.8, 350, 0.05, 200⟩ 0 =
      spec_hue ⟨1280, 720, 0.6, 2, 0.7, 0.8, 350, 0.05, 200⟩
        ((3 * Real.pi / 10 : ℝ) : ℂ) := (h 0) ▸ h ((3 * Real.pi / 10 : ℝ) : ℂ)
  unfold spec_hue at heq
  rw [map_zero] at heq
  have habs : Complex.abs ((3 * Real.pi / 10 : ℝ) : ℂ) = 3 * Real.pi / 10 := by
    rw [Complex.abs_ofReal]
    exact abs_of_nonneg (by positivity)
  rw [habs] at heq
  have hdiv : (3 * Real.pi / 10) / (0.6 : ℝ) = Real.pi / 2 := by ring
  show False
  rw [show ((⟨1280, 720, 0.6, 2, 0.7, 0.8, 350, 0.05, 200⟩ :
      Cmdline.Config).bounds) = (0.6 : ℝ) from rfl] at heq
  rw [hdiv, Real.cos_pi_div_two] at heq
  norm_num [Real.cos_zero] at heq

lemma mandelbrot_cmdline_zero :
    Cmdline.mandelbrot 0 0 0 ⟨1280, 720, 0.6, 2, 0.7, 0.8, 350, 0.05, 1⟩ = 0 := by
  unfold Cmdline.mandelbrot
  rw [show (((⟨1280, 720, 0.6, 2, 0.7, 0.8, 350, 0.05, 1⟩ :
      Cmdline.Config).power : ℝ) : ℂ) = ((2 : ℝ) : ℂ) from rfl]
  rw [Complex.zero_cpow (by norm_num)]
  rw [zero_add]
  exact Complex.ext rfl rfl

lemma seed_writes_unit :
    Cmdline.seed_writes ⟨1280, 720, 0.6, 2, 0.7, 0.8, 350, 0.05, 1⟩ 0 0 =
      [((0 : ℂ),
        Cmdline.frame_color ⟨1280, 720, 0.6, 2, 0.7, 0.8, 350, 0.05, 1⟩)] := by
  unfold Cmdline.seed_writes Cmdline.points
  show List.map _ (trajAux _ 1 (Cmdline.mandelbrot 0 0 0 _)) = _
  rw [mandelbrot_cmdline_zero]
  show [((Cmdline.mandelbrot 0 0 0 _ : ℂ), _)] = _
  rw [mandelbrot_cmdline_zero]

/-- C2 (amended): in the blend-accumulation renderer, every trajectory
point of every seed is written with one and the same fixed colour —
full-intensity white with alpha `trunc(65535 · opacity)` — computed once
before the seed loop; the colour does not depend on the seed at all (in
particular no hue is derived from `|c|`, and `colour_factor` is unused). -/
theorem frame_color_constant :
    ∀ (cfg : Cmdline.Config) (x y x' y' : ℝ),
      (∀ w ∈ Cmdline.seed_writes cfg x y, w.2 = Cmdline.frame_color cfg) ∧
      (Cmdline.seed_writes cfg x y).map Prod.snd =
        (Cmdline.seed_writes cfg x' y').map Prod.snd ∧
      Cmdline.frame_color cfg =
        ⟨65535, 65535, 65535, f64_to_u16 (65535 * cfg.opacity)⟩ ∧
      (∀ cf : ℝ,
        Cmdline.frame_color ⟨cfg.width, cfg.height, cfg.bounds, cfg.power,
          cf, cfg.opacity, cfg.zoom, cfg.delta, cfg.loop_limit⟩ =
          Cmdline.frame_color cfg) := by
  intro cfg x y x' y'
  have hmap : ∀ (a b : ℝ),
      (Cmdline.seed_writes cfg a b).map Prod.snd =
        List.replicate cfg.loop_limit (Cmdline.frame_color cfg) := by
    intro a b
    unfold Cmdline.seed_writes
    rw [List.map_map]
    show (Cmdline.points cfg a b).map (fun _ => Cmdline.frame_color cfg) = _
    rw [List.map_const']
    unfold Cmdline.points
    rw [trajAux_length]
  refine ⟨?_, by rw [hmap x y, hmap x' y'], rfl, fun cf => rfl⟩
  intro w hw
  unfold Cmdline.seed_writes at hw
  obtain ⟨z, _, hzw⟩ := List.mem_map.mp hw
  rw [← hzw]

/-- Witness for C2 (amended): with `loop_limit = 1` and seed `(0, 0)` the
single write carries the frame colour. -/
theorem frame_color_constant_witness :
    (((0 : ℂ),
        Cmdline.frame_color ⟨1280, 720, 0.6, 2, 0.7, 0.8, 350, 0.05, 1⟩) :
        ℂ × Rgba).2 =
      Cmdline.frame_color ⟨1280, 720, 0.6, 2, 0.7, 0.8, 350, 0.05, 1⟩ :=
  (frame_color_constant ⟨1280, 720, 0.6, 2, 0.7, 0.8, 350, 0.05, 1⟩
    0 0 1 1).1 _ (by rw [seed_writes_unit]; exact List.mem_singleton.mpr rfl)

/-- C7: the export conversion of the blend variant downsamples every
channel of every pixel from 16-bit to 8-bit by a right shift of 8 bits —
each output channel equals the corresponding input channel divided by 256,
truncated — and the output pixel depends on nothing but the input pixel at
the same position. -/
theorem export_downshift_by_8 :
    ∀ (img : ℕ × ℕ → Rgba) (pos : ℕ × ℕ),
      ((img pos).r < 2 ^ 16 →
        (Cmdline.u16_to_u8 img pos).r = (img pos).r / 256) ∧
      ((img pos).g < 2 ^ 16 →
        (Cmdline.u16_to_u8 img pos).g = (img pos).g / 256) ∧
      ((img pos).b < 2 ^ 16 →
        (Cmdline.u16_to_u8 img pos).b = (img pos).b / 256) ∧
      ((img pos).a < 2 ^ 16 →
        (Cmdline.u16_to_u8 img pos).a = (img pos).a / 256) ∧
      (∀ img' : ℕ × ℕ → Rgba, img pos = img' pos →
        Cmdline.u16_to_u8 img pos = Cmdline.u16_to_u8 img' pos) := by
  have key : ∀ n : ℕ, n < 2 ^ 16 → (n >>> 8) % 256 = n / 256 := by
    intro n hn
    rw [Nat.shiftRight_eq_div_pow]
    show (n / 256) % 256 = n / 256
    omega
  intro img pos
  refine ⟨fun h => key _ h, fun h => key _ h, fun h => key _ h,
    fun h => key _ h, fun img' h => ?_⟩
  unfold Cmdline.u16_to_u8
  rw [h]

/-- Witness for C7: a concrete pixel `(65535, 512, 300, 52428)` exports to
channel values `255, 2, 1, 204`. -/
theorem export_downshift_by_8_witness :
    (Cmdline.u16_to_u8 (fun _ => ⟨65535, 512, 300, 52428⟩) (0, 0)).r =
        65535 / 256 ∧
      (Cmdline.u16_to_u8 (fun _ => ⟨65535, 512, 300, 52428⟩) (0, 0)).g =
        512 / 256 ∧
      (Cmdline.u16_to_u8 (fun _ => ⟨65535, 512, 300, 52428⟩) (0, 0)).b =
        300 / 256 ∧
      (Cmdline.u16_to_u8 (fun _ => ⟨65535, 512, 300, 52428⟩) (0, 0)).a =
        52428 / 256 := by
  have h := export_downshift_by_8 (fun _ => ⟨65535, 512, 300, 52428⟩) (0, 0)
  exact ⟨h.1 (by norm_num), h.2.1 (by norm_num), h.2.2.1 (by norm_num),
    h.2.2.2.1 (by norm_num)⟩

/-- C8: the live-window display conversion applies the inverse-exponential
tone map to every pixel: with accumulated count `p` and brightness
`factor > 0`, the displayed value is `⌊(1 − exp(−p/factor)) · 255⌋`
(truncated, and never saturating since the value is below 255), written
identically to the red, green and blue channels with alpha 255. -/
theorem display_tone_map :
    ∀ (canvas : Main.CanvasD) (factor : ℝ) (pos : ℕ × ℕ), 0 < factor →
      Main.u16_to_u8 canvas factor pos =
        ⟨⌊(1 - Real.exp (-(canvas pos : ℝ) / factor)) * 255⌋₊,
         ⌊(1 - Real.exp (-(canvas pos : ℝ) / factor)) * 255⌋₊,
         ⌊(1 - Real.exp (-(canvas pos : ℝ) / factor)) * 255⌋₊, 255⟩ := by
  intro canvas factor pos hf
  have hp : (0 : ℝ) ≤ (canvas pos : ℝ) := Nat.cast_nonneg _
  have harg : -(canvas pos : ℝ) / factor ≤ 0 :=
    div_nonpos_of_nonpos_of_nonneg (neg_nonpos.mpr hp) hf.le
  have hexp_le : Real.exp (-(canvas pos : ℝ) / factor) ≤ 1 :=
    Real.exp_le_one_iff.mpr harg
  have hexp_pos : 0 < Real.exp (-(canvas pos : ℝ) / factor) := Real.exp_pos _
  have hx0 : 0 ≤ (1 - Real.exp (-(canvas pos : ℝ) / factor)) * 255 := by
    nlinarith
  have hx255 : (1 - Real.exp (-(canvas pos : ℝ) / factor)) * 255 <
      ((255 : ℕ) : ℝ) := by
    push_cast
    nlinarith
  have hmin : f64_to_u8 ((1 - Real.exp (-(canvas pos : ℝ) / factor)) * 255) =
      ⌊(1 - Real.exp (-(canvas pos : ℝ) / factor)) * 255⌋₊ := by
    unfold f64_to_u8
    exact min_eq_left ((Nat.floor_lt hx0).mpr hx255).le
  have hdef : Main.u16_to_u8 canvas factor pos =
      (⟨f64_to_u8 ((1 - Real.exp (-(canvas pos : ℝ) / factor)) * 255),
        f64_to_u8 ((1 - Real.exp (-(canvas pos : ℝ) / factor)) * 255),
        f64_to_u8 ((1 - Real.exp (-(canvas pos : ℝ) / factor)) * 255),
        255⟩ : Rgba) := rfl
  rw [hdef, hmin]

/-- Witness for C8: a zero-count pixel at brightness factor 50 displays as
opaque black `(0, 0, 0, 255)`. -/
theorem display_tone_map_witness :
    Main.u16_to_u8 (fun _ => 0) 50 (0, 0) = ⟨0, 0, 0, 255⟩ := by
  rw [display_tone_map (fun _ => 0) 50 (0, 0) (by norm_num)]
  norm_num [Real.exp_zero]

/-- C9: both export conversions are deterministic functions of the canvas
contents (and, for the live variant, the brightness factor): canvases with
identical pixel contents export to byte-identical output, so two exports
of an unchanged canvas produce the same bytes. -/
theorem export_deterministic :
    (∀ (c1 c2 : Main.CanvasD) (factor : ℝ), (∀ pos, c1 pos = c2 pos) →
      Main.u16_to_u8 c1 factor = Main.u16_to_u8 c2 factor) ∧
    (∀ b1 b2 : ℕ × ℕ → Rgba, (∀ pos, b1 pos = b2 pos) →
      Cmdline.u16_to_u8 b1 = Cmdline.u16_to_u8 b2) := by
  constructor
  · intro c1 c2 factor h
    rw [funext h]
  · intro b1 b2 h
    rw [funext h]

/-- Witness for C9: two exports of one and the same constant canvas agree. -/
theorem export_deterministic_witness :
    Main.u16_to_u8 (fun _ => 5) 50 = Main.u16_to_u8 (fun _ => 5) 50 :=
  export_deterministic.1 (fun _ => 5) (fun _ => 5) 50 (fun _ => rfl)

end Rpixi
